import Mathlib

/-!
Shallow embedding of the retrieval-and-response pipeline of the basic-rag-demo
repository: the multi-keyword retriever (`ChunkFinder.find_chunks`), the
sentinel filter, the answer-extraction fallback chain of
`ContextualResponder._get_contextual_response`, the orchestration branch of
`ContextualResponder.get_response`, and the in-band error conversion of
`ChatService.chat` / `chat_sync`.

Python strings are modelled as `String` (character lists where positional
arithmetic is needed), Python `in` as a substring test, Python `dict` as an
insertion-ordered association list, and the external collaborators (Evidence
Store, LLM backend) as explicit oracles.
-/

namespace Rag

/-- A retrieved chunk: `langchain` `Document` with `page_content` and opaque metadata. -/
structure Document where
  page_content : String
  metadata : List (String × String)
deriving DecidableEq

/-- Python substring test `pat in s`, over character lists. -/
def hasSub (pat : List Char) : List Char → Bool
  | [] => pat.isEmpty
  | c :: cs => pat.isPrefixOf (c :: cs) || hasSub pat cs

/-- Index of the leftmost occurrence of `pat` in `s`, if any. -/
def firstIdx (pat : List Char) : List Char → Option Nat
  | [] => if pat.isEmpty then some 0 else none
  | c :: cs => if pat.isPrefixOf (c :: cs) then some 0 else (firstIdx pat cs).map (· + 1)

/-- Python `str.strip()`: drop leading and trailing whitespace. -/
def pyStrip (s : List Char) : List Char :=
  ((s.dropWhile Char.isWhitespace).reverse.dropWhile Char.isWhitespace).reverse

/-- The sentinel content of the placeholder document inserted at `ChunkFinder.__init__`. -/
def placeholderText : String := "This is a placeholder document for initialization."

/-- `[doc for doc in docs if "This is a placeholder..." not in doc.page_content]`. -/
def filterPlaceholder (docs : List Document) : List Document :=
  docs.filter (fun d => !(hasSub placeholderText.data d.page_content.data))

/-- The Evidence Store oracle: `similarity_search(keyword, k)`.
`none` models a raised exception for that call. -/
abbrev SearchFn := String → Nat → Option (List Document)

/-- One keyword's retrieval inside `find_chunks`: search, filter the placeholder;
the `except` branch records an empty list for a failed keyword. -/
def keywordDocs (search : SearchFn) (kw : String) (k : Nat) : List Document :=
  match search kw k with
  | some docs => filterPlaceholder docs
  | none => []

/-- Python dict assignment `d[k] = v`: replace in place, else append. -/
def dictInsert (k : String) (v : List Document) :
    List (String × List Document) → List (String × List Document)
  | [] => [(k, v)]
  | (k1, v1) :: rest => if k1 = k then (k1, v) :: rest else (k1, v1) :: dictInsert k v rest

/-- The per-keyword search loop of `find_chunks`: builds `keyword_docs` and records,
in order, every keyword a similarity search was issued for. -/
def buildLoop (search : SearchFn) (searchK : Nat) :
    List String → List (String × List Document) → List String →
    List (String × List Document) × List String
  | [], dict, calls => (dict, calls)
  | kw :: rest, dict, calls =>
    buildLoop search searchK rest (dictInsert kw (keywordDocs search kw searchK) dict)
      (calls ++ [kw])

/-- `[k for k in keyword_list if k]`: drop empty keyword strings. -/
def dropEmpty (keywords : List String) : List String :=
  keywords.filter (fun k => k ≠ "")

/-- `chunks_per_keyword = max(1, num_chunks // len(keyword_list))`. -/
def chunks_per_keyword (keywords : List String) (num_chunks : Nat) : Nat :=
  max 1 (num_chunks / (dropEmpty keywords).length)

/-- `extra_chunks = num_chunks % len(keyword_list)`. -/
def extra_chunks (keywords : List String) (num_chunks : Nat) : Nat :=
  num_chunks % (dropEmpty keywords).length

/-- First-pass inner loop: add docs with unseen content while `added < chunks_per_keyword`. -/
def passOne (quota : Nat) : List Document → List String → Nat → List Document × List String
  | [], seen, _ => ([], seen)
  | d :: ds, seen, added =>
    if d.page_content ∉ seen ∧ added < quota then
      let r := passOne quota ds (d.page_content :: seen) (added + 1)
      (d :: r.1, r.2)
    else passOne quota ds seen added

/-- First merging pass of `find_chunks`: up to `chunks_per_keyword` docs per dict entry. -/
def firstPass (quota : Nat) :
    List (String × List Document) → List String → List Document × List String
  | [], seen => ([], seen)
  | (_, docs) :: rest, seen =>
    let r := passOne quota docs seen 0
    let r2 := firstPass quota rest r.2
    (r.1 ++ r2.1, r2.2)

/-- Second-pass inner loop: add unseen docs while `extra_chunks > 0`, decrementing. -/
def passTwoKw : List Document → List String → Nat → List Document × List String × Nat
  | [], seen, extra => ([], seen, extra)
  | d :: ds, seen, extra =>
    if d.page_content ∉ seen ∧ 0 < extra then
      let r := passTwoKw ds (d.page_content :: seen) (extra - 1)
      (d :: r.1, r.2)
    else passTwoKw ds seen extra

/-- Second merging pass of `find_chunks`: walk dict entries distributing the remainder,
breaking out once it reaches zero. -/
def passTwo :
    List (String × List Document) → List String → Nat → List Document × List String × Nat
  | [], seen, extra => ([], seen, extra)
  | (_, docs) :: rest, seen, extra =>
    if extra = 0 then ([], seen, extra)
    else
      let r := passTwoKw docs seen extra
      let r2 := passTwo rest r.2.1 r.2.2
      (r.1 ++ r2.1, r2.2)

/-- `ChunkFinder.find_chunks` on an already-split keyword list; also returns the
list of keywords a similarity search was issued for. -/
def find_chunksAux (search : SearchFn) (keywords : List String) (num_chunks : Nat) :
    List Document × List String :=
  let keyword_list := dropEmpty keywords
  if keyword_list.isEmpty then ([], [])
  else
    let quota := chunks_per_keyword keywords num_chunks
    let built := buildLoop search (quota * 2) keyword_list [] []
    let r1 := firstPass quota built.1 []
    let result :=
      if 0 < extra_chunks keywords num_chunks then
        r1.1 ++ (passTwo built.1 r1.2 (extra_chunks keywords num_chunks)).1
      else r1.1
    (result, built.2)

/-- The document list returned by `ChunkFinder.find_chunks`. -/
def find_chunks (search : SearchFn) (keywords : List String) (num_chunks : Nat) :
    List Document :=
  (find_chunksAux search keywords num_chunks).1

/-- `ChunkFinder.find_chunks_by_query`: single search, placeholder filter. -/
def find_chunks_by_query (search : SearchFn) (query : String) (num_chunks : Nat) :
    List Document :=
  match search query num_chunks with
  | some docs => filterPlaceholder docs
  | none => []

/-- The docs of a list whose content is new relative to `seen`, deduplicated by
content, in order: the stream both merging passes consume. -/
def dedupNew (seen : List String) : List Document → List Document
  | [] => []
  | d :: ds =>
    if d.page_content ∈ seen then dedupNew seen ds
    else d :: dedupNew (d.page_content :: seen) ds

/-- Group 1 of the leftmost-first match of `openTag(.*?)closeTag` with `re.DOTALL`:
content between the first `openTag` occurrence and the first `closeTag`
occurrence after it. -/
def tagMatch (openTag closeTag s : List Char) : Option (List Char) :=
  match firstIdx openTag s with
  | none => none
  | some i =>
    match firstIdx closeTag ((s.drop i).drop openTag.length) with
    | none => none
    | some j => some (((s.drop i).drop openTag.length).take j)

/-- Leftmost occurrence of either literal marker; returns the rest of the string
after the matched marker (the `re.DOTALL` group of `(?:Answer|Response):\s*(.*)`
before stripping). -/
def markerRest (p q : List Char) : List Char → Option (List Char)
  | [] => if p.isEmpty || q.isEmpty then some [] else none
  | c :: cs =>
    if p.isPrefixOf (c :: cs) then some ((c :: cs).drop p.length)
    else if q.isPrefixOf (c :: cs) then some ((c :: cs).drop q.length)
    else markerRest p q cs

def answerOpen : List Char := "<answer>".data

def answerClose : List Char := "</answer>".data

def answerMarker : List Char := "Answer:".data

def responseMarker : List Char := "Response:".data

/-- The answer-extraction fallback chain of `_get_contextual_response`: `<answer>`
tags first, then `Answer:`/`Response:` markers (tried when the tag answer is
absent or falsy), finally the raw response. -/
def extractAnswer (response : List Char) : List Char :=
  let fromTags : Option (List Char) :=
    match tagMatch answerOpen answerClose response with
    | some g => some (pyStrip g)
    | none => none
  let answer : Option (List Char) :=
    match fromTags with
    | some t =>
      if t.isEmpty then
        match markerRest answerMarker responseMarker response with
        | some rest => some (pyStrip rest)
        | none => some t
      else some t
    | none =>
      match markerRest answerMarker responseMarker response with
      | some rest => some (pyStrip rest)
      | none => none
  match answer with
  | some t => if t.isEmpty then response else t
  | none => response

def keywordsOpen : List Char := "<keywords>".data

def keywordsClose : List Char := "</keywords>".data

/-- Keyword parsing in `get_response`: content of `<keywords>` tags stripped and
split on commas, each keyword stripped; without the tag, the raw reply is split. -/
def extractKeywords (keywords_str : String) : List String :=
  match tagMatch keywordsOpen keywordsClose keywords_str.data with
  | some g => ((pyStrip g).splitOn ',').map (fun kw => (pyStrip kw).asString)
  | none => (keywords_str.data.splitOn ',').map (fun kw => (pyStrip kw).asString)

/-- Python `s.replace(pat, rep)` (all occurrences, left to right). -/
def replaceAll (pat rep : List Char) : List Char → List Char
  | [] => []
  | c :: cs =>
    if h : 0 < pat.length ∧ pat.isPrefixOf (c :: cs) then
      rep ++ replaceAll pat rep ((c :: cs).drop pat.length)
    else c :: replaceAll pat rep cs
termination_by s => s.length
decreasing_by
· simp only [List.length_drop, List.length_cons]
  omega
· simp only [List.length_cons]
  omega

/-- `String` version of `replaceAll`. -/
def replaceAllS (s pat rep : String) : String :=
  (replaceAll pat.data rep.data s.data).asString

/-- `_build_context_from_chunks`: numbered `Document {i}` blocks joined by newlines. -/
def buildContext (chunks : List Document) : String :=
  String.intercalate "\n" (chunks.enum.map (fun p =>
    "Document " ++ toString (p.1 + 1) ++ ":\n" ++ p.2.page_content ++ "\n"))

/-- Which branch `get_response` resolved to. -/
inductive Branch where
  | direct : Branch
  | contextual : Branch
deriving DecidableEq

/-- External collaborators and configuration of one `ContextualResponder`:
the Evidence Store, the chat backend (`chat_sync` as a function of system
message and user prompt), and the two loaded prompt templates. -/
structure Env where
  search : SearchFn
  chatSync : Option String → String → String
  keywordTemplate : String
  contextTemplate : String

/-- The fixed system message of `_get_direct_response`. -/
def directSystemMessage : String :=
  "You are a helpful AI assistant. Answer the user's question to the best of your ability."

/-- The keyword-extraction prompt sent in step 1 of `get_response`. -/
def keywordPrompt (env : Env) (query : String) : String :=
  replaceAllS env.keywordTemplate "{{USER_QUERY}}" query

/-- `ContextualResponder.get_response`, tagged with the branch taken: keyword
extraction, retrieval, then either the direct-answer fallback (empty chunks) or
context assembly, prompting and answer extraction. -/
def get_response (env : Env) (query : String) (num_chunks : Nat) : Branch × String :=
  let keywords_str := env.chatSync none (keywordPrompt env query)
  let keywords := extractKeywords keywords_str
  let chunks := find_chunks env.search keywords num_chunks
  if chunks.isEmpty then
    (Branch.direct, env.chatSync (some directSystemMessage) query)
  else
    let context := buildContext chunks
    let prompt :=
      replaceAllS (replaceAllS env.contextTemplate "{{CONTEXT}}" context) "{{USER_QUERY}}" query
    (Branch.contextual, (extractAnswer (env.chatSync none prompt).data).asString)

/-- One line of the streamed Ollama response body, as seen by the loop in
`ChatService.chat`: a falsy (empty) line, a JSON object with an optional
`message.content` and a `done` flag, or a line on which `json.loads` raises. -/
inductive ChatLine where
  | empty : ChatLine
  | jsonLine (content : Option String) (done : Bool) : ChatLine
  | malformed (err : String) : ChatLine
deriving DecidableEq

/-- Outcome of the HTTP POST in `ChatService.chat`: a response body, or a
`requests` exception (including `raise_for_status`). -/
inductive Transport where
  | ok (lines : List ChatLine) : Transport
  | reqError (err : String) : Transport
deriving DecidableEq

/-- The line-processing loop of `ChatService.chat`, with the
`json.JSONDecodeError` handler yielding its in-band error string. -/
def processLines : List ChatLine → List String
  | [] => []
  | ChatLine.empty :: rest => processLines rest
  | ChatLine.malformed e :: _ => ["Error decoding response: " ++ e]
  | ChatLine.jsonLine c done :: rest =>
    let ys := match c with | some s => [s] | none => []
    if done then ys else ys ++ processLines rest

/-- `ChatService.chat`: the streamed chunks; failures become in-band error strings. -/
def chat (t : Transport) : List String :=
  match t with
  | Transport.reqError e => ["Error: " ++ e]
  | Transport.ok lines => processLines lines

/-- `ChatService.chat_sync`: join of all streamed chunks. -/
def chat_sync (t : Transport) : String := String.join (chat t)

/-- True when the processing loop reaches a line on which `json.loads` raises. -/
def reachesMalformed : List ChatLine → Bool
  | [] => false
  | ChatLine.empty :: rest => reachesMalformed rest
  | ChatLine.malformed _ :: _ => true
  | ChatLine.jsonLine _ done :: rest => if done then false else reachesMalformed rest

/-- A transport or payload-decoding failure occurs during the call. -/
def chatFails : Transport → Bool
  | Transport.reqError _ => true
  | Transport.ok lines => reachesMalformed lines

/-- Fixture: an Evidence Store returning one distinct passage per keyword. -/
def oneDocSearch : SearchFn := fun kw _ => some [⟨kw, []⟩]

/-- Fixture: an Evidence Store returning four distinct passages per keyword. -/
def fourDocSearch : SearchFn := fun kw _ =>
  some [⟨kw ++ "1", []⟩, ⟨kw ++ "2", []⟩, ⟨kw ++ "3", []⟩, ⟨kw ++ "4", []⟩]

/-- Fixture: a passage whose content strictly contains the placeholder sentinel. -/
def supersetDoc : Document :=
  ⟨"This is a placeholder document for initialization. Plus extra words.", []⟩

/-- Fixture: an ordinary passage. -/
def plainDoc : Document := ⟨"hello", []⟩

/-- Fixture: an environment whose chat backend always replies `","`. -/
def commaEnv : Env :=
  { search := fun _ _ => some []
    chatSync := fun _ _ => ","
    keywordTemplate := "Extract: {{USER_QUERY}}"
    contextTemplate := "Context: {{CONTEXT}} Question: {{USER_QUERY}}" }

/-! ### String lemmas -/

theorem firstIdx_eq_none (pat s : List Char) (h : hasSub pat s = false) :
    firstIdx pat s = none := by
  induction s with
  | nil =>
    simp only [hasSub] at h
    simp [firstIdx, h]
  | cons c cs ih =>
    simp only [hasSub, Bool.or_eq_false_iff] at h
    simp [firstIdx, h.1, ih h.2]

theorem markerRest_none (p q s : List Char) (hp : hasSub p s = false)
    (hq : hasSub q s = false) : markerRest p q s = none := by
  induction s with
  | nil =>
    simp only [hasSub] at hp hq
    simp [markerRest, hp, hq]
  | cons c cs ih =>
    simp only [hasSub, Bool.or_eq_false_iff] at hp hq
    simp [markerRest, hp.1, hq.1, ih hp.2 hq.2]

theorem firstIdx_self (pat s : List Char) (h : pat.isPrefixOf s = true) :
    firstIdx pat s = some 0 := by
  cases s with
  | nil =>
    cases pat with
    | nil => simp [firstIdx]
    | cons a as => simp [List.isPrefixOf] at h
  | cons c cs => simp [firstIdx, h]

theorem firstIdx_append (hc : Char) (pt pre s : List Char) (h : ∀ c ∈ pre, c ≠ hc) :
    firstIdx (hc :: pt) (pre ++ s) = (firstIdx (hc :: pt) s).map (· + pre.length) := by
  induction pre with
  | nil =>
    cases hE : firstIdx (hc :: pt) s <;> simp [hE]
  | cons c cs ih =>
    have hne : c ≠ hc := h c (by simp)
    have hcc : ¬((hc :: pt).isPrefixOf (c :: (cs ++ s)) = true) := by
      simp [List.isPrefixOf]
      intro hEq
      exact absurd hEq.symm hne
    have ih2 := ih (fun c hcMem => h c (by simp [hcMem]))
    simp only [List.cons_append, firstIdx, List.append_eq, ih2]
    rw [if_neg hcc]
    cases hE : firstIdx (hc :: pt) s <;> simp [hE] <;> omega

theorem isPrefixOf_append_self (p r : List Char) : p.isPrefixOf (p ++ r) = true := by
  simp [ List.isPrefixOf_iff_prefix]

theorem tagMatch_surround (otTail ctTail pre x post : List Char)
    (hpre : ∀ c ∈ pre, c ≠ '<') (hx : ∀ c ∈ x, c ≠ '<') :
    tagMatch ('<' :: otTail) ('<' :: ctTail)
      (pre ++ ('<' :: otTail) ++ x ++ ('<' :: ctTail) ++ post) = some x := by
  have h1 : firstIdx ('<' :: otTail)
      (pre ++ (('<' :: otTail) ++ (x ++ (('<' :: ctTail) ++ post)))) = some pre.length := by
    rw [firstIdx_append '<' otTail pre _ hpre,
      firstIdx_self _ _ (isPrefixOf_append_self _ _)]
    simp
  have h2 : firstIdx ('<' :: ctTail) (x ++ (('<' :: ctTail) ++ post)) = some x.length := by
    rw [firstIdx_append '<' ctTail x _ hx,
      firstIdx_self _ _ (isPrefixOf_append_self _ _)]
    simp
  unfold tagMatch
  simp only [List.append_assoc] at h1 ⊢
  rw [h1]
  dsimp only
  rw [List.drop_left, List.drop_left, h2]
  dsimp only
  rw [List.take_left]

/-- C8: a raw model response containing neither `<answer>` tags nor an
`Answer:` or `Response:` marker is returned whole by the extraction chain;
extraction never fails outright. -/
theorem extract_fallback_whole (s : List Char)
    (h1 : hasSub answerOpen s = false)
    (h2 : hasSub answerMarker s = false)
    (h3 : hasSub responseMarker s = false) :
    extractAnswer s = s := by
  have t1 : tagMatch answerOpen answerClose s = none := by
    unfold tagMatch
    rw [firstIdx_eq_none _ _ h1]
  have t2 : markerRest answerMarker responseMarker s = none := markerRest_none _ _ _ h2 h3
  unfold extractAnswer
  rw [t1, t2]

/-- Witness for C8 at a concrete tagless, markerless response. -/
theorem extract_fallback_whole_witness :
    extractAnswer ("the model just rambles".data) = "the model just rambles".data :=
  extract_fallback_whole _ (by decide) (by decide) (by decide)

/-- C7 counterexample: `"<answer> </answer>"` contains `<answer>X</answer>` with
`X = " "`, whose trim is empty; the code returns the whole raw response, not
the trimmed `X`. -/
theorem extract_answer_blank_cx :
    ("<answer> </answer>".data = "".data ++ answerOpen ++ " ".data ++ answerClose ++ "".data) ∧
    extractAnswer ("<answer> </answer>".data) ≠ pyStrip (" ".data) := by
  constructor
  · decide
  · decide

/-- C7 amended: when the surrounding text and the tagged content contain no
`'<'` (so the shown occurrence is the first tag match) and the content is not
pure whitespace, extraction returns exactly the tagged content trimmed. -/
theorem extract_answer_tag_roundtrip (pre x post : List Char)
    (hpre : ∀ c ∈ pre, c ≠ '<') (hx : ∀ c ∈ x, c ≠ '<') (hnz : pyStrip x ≠ []) :
    extractAnswer (pre ++ answerOpen ++ x ++ answerClose ++ post) = pyStrip x := by
  have ht : tagMatch answerOpen answerClose
      (pre ++ answerOpen ++ x ++ answerClose ++ post) = some x := by
    have hopen : answerOpen = '<' :: "answer>".data := rfl
    have hclose : answerClose = '<' :: "/answer>".data := rfl
    rw [hopen, hclose]
    exact tagMatch_surround _ _ _ _ _ hpre hx
  unfold extractAnswer
  rw [ht]
  simp only [Option.some.injEq]
  have : (pyStrip x).isEmpty = false := by
    cases hP : pyStrip x with
    | nil => exact absurd hP hnz
    | cons a as => rfl
  simp [this]

/-- Witness for C7 amended at a concrete response with surrounding text. -/
theorem extract_answer_tag_roundtrip_witness :
    extractAnswer ("Sure! ".data ++ answerOpen ++ " 42 ".data ++ answerClose ++ " bye".data) =
      pyStrip (" 42 ".data) :=
  extract_answer_tag_roundtrip _ _ _ (by decide) (by decide) (by decide)

/-! ### Chat service lemmas -/

theorem processLines_fail (lines : List ChatLine) (h : reachesMalformed lines = true) :
    ∃ pre e, processLines lines = pre ++ [e] ∧
      (("Error: ".data).isPrefixOf e.data = true ∨
       ("Error decoding response: ".data).isPrefixOf e.data = true) := by
  induction lines with
  | nil => simp [reachesMalformed] at h
  | cons l rest ih =>
    cases l with
    | empty =>
      simp only [reachesMalformed] at h
      obtain ⟨pre, e, hEq, hP⟩ := ih h
      exact ⟨pre, e, by simp [processLines, hEq], hP⟩
    | malformed err =>
      refine ⟨[], "Error decoding response: " ++ err, by simp [processLines], Or.inr ?_⟩
      rw [String.data_append]
      exact isPrefixOf_append_self _ _
    | jsonLine c done =>
      cases done with
      | true => simp [reachesMalformed] at h
      | false =>
        simp only [reachesMalformed, if_false] at h
        obtain ⟨pre, e, hEq, hP⟩ := ih h
        refine ⟨(match c with | some s => [s] | none => []) ++ pre, e, ?_, hP⟩
        simp [processLines, hEq]

/-- C9: whenever the transport fails or a streamed line fails to decode,
`ChatService.chat` returns normally, ending the streamed chunks with an in-band
error string (`Error: ...` or `Error decoding response: ...`), and `chat_sync`
joins the same chunks into its result. -/
theorem chat_error_in_band (t : Transport) (h : chatFails t = true) :
    ∃ pre e, chat t = pre ++ [e] ∧
      (("Error: ".data).isPrefixOf e.data = true ∨
       ("Error decoding response: ".data).isPrefixOf e.data = true) ∧
      chat_sync t = String.join (pre ++ [e]) := by
  cases t with
  | ok lines =>
    obtain ⟨pre, e, hEq, hP⟩ := processLines_fail lines h
    exact ⟨pre, e, hEq, hP, by simp [chat_sync, chat, hEq]⟩
  | reqError err =>
    refine ⟨[], "Error: " ++ err, rfl, Or.inl ?_, rfl⟩
    rw [String.data_append]
    exact isPrefixOf_append_self _ _

/-- Witness for C9 at a concrete connection failure. -/
theorem chat_error_in_band_witness :
    ∃ pre e, chat (Transport.reqError "connection refused") = pre ++ [e] ∧
      (("Error: ".data).isPrefixOf e.data = true ∨
       ("Error decoding response: ".data).isPrefixOf e.data = true) ∧
      chat_sync (Transport.reqError "connection refused") = String.join (pre ++ [e]) :=
  chat_error_in_band _ (by decide)

/-! ### Merging-pass characterizations

Both passes consume, per keyword, the stream `dedupNew seen docs` of
not-yet-seen contents; the lemmas below make that explicit. -/

theorem passOne_eq (quota : Nat) (docs : List Document) :
    ∀ (seen : List String) (added : Nat),
    passOne quota docs seen added =
      ((dedupNew seen docs).take (quota - added),
       (((dedupNew seen docs).take (quota - added)).map Document.page_content).reverse ++ seen) := by
  induction docs with
  | nil => intro seen added; simp [passOne, dedupNew]
  | cons d ds ih =>
    intro seen added
    by_cases hSeen : d.page_content ∈ seen
    · simp only [passOne]
      rw [if_neg (by simp [hSeen]), ih]
      simp [dedupNew, hSeen]
    · by_cases hQ : added < quota
      · simp only [passOne]
        rw [if_pos ⟨hSeen, hQ⟩, ih]
        simp only [dedupNew, if_neg hSeen]
        have hx : quota - added = (quota - (added + 1)) + 1 := by omega
        rw [hx, List.take_succ_cons]
        simp [List.append_assoc]
      · simp only [passOne]
        rw [if_neg (by intro hand; exact hQ hand.2), ih]
        have h0 : quota - added = 0 := by omega
        simp [dedupNew, hSeen, h0]

theorem passTwoKw_eq (docs : List Document) :
    ∀ (seen : List String) (extra : Nat),
    passTwoKw docs seen extra =
      ((dedupNew seen docs).take extra,
       (((dedupNew seen docs).take extra).map Document.page_content).reverse ++ seen,
       extra - (dedupNew seen docs).length) := by
  induction docs with
  | nil => intro seen extra; simp [passTwoKw, dedupNew]
  | cons d ds ih =>
    intro seen extra
    by_cases hSeen : d.page_content ∈ seen
    · simp only [passTwoKw]
      rw [if_neg (by simp [hSeen]), ih]
      simp [dedupNew, hSeen]
    · by_cases hE : 0 < extra
      · obtain ⟨e, rfl⟩ : ∃ e, extra = e + 1 := ⟨extra - 1, by omega⟩
        simp only [passTwoKw]
        rw [if_pos ⟨hSeen, hE⟩, ih]
        simp only [dedupNew, if_neg hSeen, Nat.add_sub_cancel, List.take_succ_cons]
        simp only [Prod.mk.injEq]
        refine ⟨by trivial, by simp [List.append_assoc], by simp⟩
      · have h0 : extra = 0 := by omega
        subst h0
        simp only [passTwoKw]
        rw [if_neg (by simp), ih]
        simp [dedupNew, hSeen]

theorem dedupNew_append (l1 : List Document) :
    ∀ (l2 : List Document) (seen : List String),
    dedupNew seen (l1 ++ l2) =
      dedupNew seen l1 ++
        dedupNew (((dedupNew seen l1).map Document.page_content).reverse ++ seen) l2 := by
  induction l1 with
  | nil => intro l2 seen; simp [dedupNew]
  | cons d ds ih =>
    intro l2 seen
    by_cases hSeen : d.page_content ∈ seen
    · simp only [List.cons_append, dedupNew, if_pos hSeen, List.append_eq]
      exact ih l2 seen
    · simp only [List.cons_append, dedupNew, if_neg hSeen, List.append_eq]
      rw [ih]
      simp [List.append_assoc]

theorem passTwo_eq (dict : List (String × List Document)) :
    ∀ (seen : List String) (extra : Nat),
    passTwo dict seen extra =
      ((dedupNew seen ((dict.map Prod.snd).flatten)).take extra,
       (((dedupNew seen ((dict.map Prod.snd).flatten)).take extra).map
         Document.page_content).reverse ++ seen,
       extra - (dedupNew seen ((dict.map Prod.snd).flatten)).length) := by
  induction dict with
  | nil => intro seen extra; simp [passTwo, dedupNew]
  | cons kv rest ih =>
    obtain ⟨k, docs⟩ := kv
    intro seen extra
    by_cases hE : extra = 0
    · subst hE
      simp [passTwo, dedupNew]
    · simp only [passTwo, if_neg hE]
      rw [passTwoKw_eq]
      dsimp only
      rw [ih]
      dsimp only
      simp only [List.map_cons, List.flatten_cons]
      rw [dedupNew_append docs ((rest.map Prod.snd).flatten) seen]
      rcases le_or_lt extra (dedupNew seen docs).length with hle | hlt
      · have h0 : extra - (dedupNew seen docs).length = 0 := by omega
        have hTakeAll : (dedupNew seen docs ++
            dedupNew (((dedupNew seen docs).map Document.page_content).reverse ++ seen)
              ((rest.map Prod.snd).flatten)).take extra = (dedupNew seen docs).take extra := by
          rw [List.take_append_eq_append_take, h0]
          simp
        rw [h0, hTakeAll]
        simp only [Prod.mk.injEq]
        refine ⟨by simp, by simp, ?_⟩
        simp only [List.take_zero, List.map_nil, List.reverse_nil, List.nil_append,
          List.length_append]
        omega
      · have hTake1 : (dedupNew seen docs).take extra = dedupNew seen docs :=
          List.take_of_length_le (by omega)
        rw [hTake1, List.take_append_eq_append_take, hTake1]
        simp only [Prod.mk.injEq]
        refine ⟨by trivial, ?_, ?_⟩
        · simp [List.map_append, List.reverse_append, List.append_assoc]
        · simp only [List.length_append]
          omega

theorem dedupNew_not_mem (l : List Document) :
    ∀ (seen : List String) (d : Document), d ∈ dedupNew seen l → d.page_content ∉ seen := by
  induction l with
  | nil => intro seen d h; simp [dedupNew] at h
  | cons a as ih =>
    intro seen d h
    by_cases hSeen : a.page_content ∈ seen
    · rw [dedupNew, if_pos hSeen] at h
      exact ih seen d h
    · rw [dedupNew, if_neg hSeen] at h
      rcases List.mem_cons.mp h with rfl | h2
      · exact hSeen
      · have hni := ih _ d h2
        intro hc
        exact hni (by simp [hc])

theorem dedupNew_nodup (l : List Document) :
    ∀ seen : List String, ((dedupNew seen l).map Document.page_content).Nodup := by
  induction l with
  | nil => intro seen; simp [dedupNew]
  | cons a as ih =>
    intro seen
    by_cases hSeen : a.page_content ∈ seen
    · rw [dedupNew, if_pos hSeen]
      exact ih seen
    · rw [dedupNew, if_neg hSeen]
      simp only [List.map_cons, List.nodup_cons]
      refine ⟨?_, ih _⟩
      intro hmem
      obtain ⟨d, hd, hEq⟩ := List.mem_map.mp hmem
      exact dedupNew_not_mem as _ d hd (by simp [hEq])

theorem firstPass_spec (quota : Nat) (dict : List (String × List Document)) :
    ∀ seen : List String,
    ((firstPass quota dict seen).1.map Document.page_content).Nodup ∧
    (∀ c ∈ (firstPass quota dict seen).1.map Document.page_content, c ∉ seen) ∧
    (∀ c, c ∈ (firstPass quota dict seen).2 ↔
      c ∈ (firstPass quota dict seen).1.map Document.page_content ∨ c ∈ seen) := by
  induction dict with
  | nil => intro seen; simp [firstPass]
  | cons kv rest ih =>
    obtain ⟨k, docs⟩ := kv
    intro seen
    simp only [firstPass]
    rw [passOne_eq]
    dsimp only
    set t1 := (dedupNew seen docs).take (quota - 0) with ht1
    set s1 := (t1.map Document.page_content).reverse ++ seen with hs1
    obtain ⟨ihN, ihS, ihM⟩ := ih s1
    have ht1Sub : t1.Sublist (dedupNew seen docs) := List.take_sublist _ _
    have ht1N : (t1.map Document.page_content).Nodup :=
      (dedupNew_nodup docs seen).sublist (ht1Sub.map _)
    have ht1S : ∀ c ∈ t1.map Document.page_content, c ∉ seen := by
      intro c hc
      obtain ⟨d, hd, rfl⟩ := List.mem_map.mp hc
      exact dedupNew_not_mem docs seen d (ht1Sub.subset hd)
    refine ⟨?_, ?_, ?_⟩
    · rw [List.map_append, List.nodup_append]
      refine ⟨ht1N, ihN, ?_⟩
      intro c hct1 hcrest
      exact ihS c hcrest (by rw [hs1]; simp [hct1])
    · intro c hc
      rw [List.map_append, List.mem_append] at hc
      rcases hc with hc | hc
      · exact ht1S c hc
      · intro hcseen
        exact ihS c hc (by rw [hs1]; simp [hcseen])
    · intro c
      rw [ihM c, hs1]
      simp only [List.map_append, List.mem_append, List.mem_reverse]
      tauto

theorem firstPass_len (quota : Nat) (dict : List (String × List Document)) :
    ∀ seen : List String, (firstPass quota dict seen).1.length ≤ dict.length * quota := by
  induction dict with
  | nil => intro seen; simp [firstPass]
  | cons kv rest ih =>
    obtain ⟨k, docs⟩ := kv
    intro seen
    simp only [firstPass]
    rw [passOne_eq]
    dsimp only
    rw [List.length_append]
    have h1 : ((dedupNew seen docs).take (quota - 0)).length ≤ quota := by
      rw [List.length_take]
      omega
    have h2 := ih (((((dedupNew seen docs).take (quota - 0)).map
      Document.page_content).reverse ++ seen))
    simp only [List.length_cons, Nat.succ_mul]
    omega

theorem dictInsert_length (k : String) (v : List Document)
    (d : List (String × List Document)) : (dictInsert k v d).length ≤ d.length + 1 := by
  induction d with
  | nil => simp [dictInsert]
  | cons kv rest ih =>
    obtain ⟨k1, v1⟩ := kv
    by_cases hk : k1 = k
    · simp [dictInsert, hk]
    · simp only [dictInsert, if_neg hk, List.length_cons]
      omega

theorem buildLoop_dict_len (search : SearchFn) (searchK : Nat) (kws : List String) :
    ∀ (dict : List (String × List Document)) (calls : List String),
    (buildLoop search searchK kws dict calls).1.length ≤ dict.length + kws.length := by
  induction kws with
  | nil => intro dict calls; simp [buildLoop]
  | cons kw rest ih =>
    intro dict calls
    simp only [buildLoop]
    have h1 := ih (dictInsert kw (keywordDocs search kw searchK) dict) (calls ++ [kw])
    have h2 := dictInsert_length kw (keywordDocs search kw searchK) dict
    simp only [List.length_cons]
    omega

theorem buildLoop_calls (search : SearchFn) (searchK : Nat) (kws : List String) :
    ∀ (dict : List (String × List Document)) (calls : List String),
    (buildLoop search searchK kws dict calls).2 = calls ++ kws := by
  induction kws with
  | nil => intro dict calls; simp [buildLoop]
  | cons kw rest ih =>
    intro dict calls
    simp only [buildLoop]
    rw [ih]
    simp

/-- Contents of one `find_chunks` result are pairwise distinct (shared by C2 and C6). -/
theorem contents_nodup (search : SearchFn) (keywords : List String) (B : Nat) :
    ((find_chunks search keywords B).map Document.page_content).Nodup := by
  unfold find_chunks find_chunksAux
  by_cases hEmp : (dropEmpty keywords).isEmpty
  · simp [hEmp]
  · simp only [hEmp, Bool.false_eq_true, if_false]
    set dict := (buildLoop search (chunks_per_keyword keywords B * 2)
      (dropEmpty keywords) [] []).1 with hdict
    obtain ⟨hN, hS, hM⟩ := firstPass_spec (chunks_per_keyword keywords B) dict []
    by_cases hX : 0 < extra_chunks keywords B
    · simp only [hX, if_true]
      rw [passTwo_eq]
      dsimp only
      set r1 := firstPass (chunks_per_keyword keywords B) dict [] with hr1
      set t2 := (dedupNew r1.2 ((dict.map Prod.snd).flatten)).take (extra_chunks keywords B)
        with ht2
      have ht2Sub : t2.Sublist (dedupNew r1.2 ((dict.map Prod.snd).flatten)) :=
        List.take_sublist _ _
      rw [List.map_append, List.nodup_append]
      refine ⟨hN, ?_, ?_⟩
      · exact (dedupNew_nodup _ r1.2).sublist (ht2Sub.map _)
      · intro c hc1 hc2
        obtain ⟨d, hd, rfl⟩ := List.mem_map.mp hc2
        have hnotin := dedupNew_not_mem _ r1.2 d (ht2Sub.subset hd)
        exact hnotin ((hM d.page_content).mpr (Or.inl hc1))
    · simp only [hX, if_false]
      exact hN

/-! ### Claim theorems for the multi-keyword retriever and orchestrator -/

/-- C1 counterexample: with three keywords and budget 1 (three non-empty
keywords exceed the budget), `find_chunks` returns three passages — more than
the budget allows. -/
theorem find_chunks_budget_cx :
    (find_chunks oneDocSearch ["a", "b", "c"] 1).length = 3 ∧
    ¬((find_chunks oneDocSearch ["a", "b", "c"] 1).length ≤ 1) := by
  constructor
  · decide
  · decide

/-- C1 amended: whenever the number of non-empty keywords is at most the
budget, `find_chunks` returns at most `num_chunks` passages. -/
theorem find_chunks_budget (search : SearchFn) (keywords : List String) (B : Nat)
    (h : (dropEmpty keywords).length ≤ B) :
    (find_chunks search keywords B).length ≤ B := by
  unfold find_chunks find_chunksAux
  by_cases hEmp : (dropEmpty keywords).isEmpty
  · simp [hEmp]
  · simp only [hEmp, Bool.false_eq_true, if_false]
    have hn : 0 < (dropEmpty keywords).length := by
      cases hK : dropEmpty keywords with
      | nil => rw [hK] at hEmp; simp at hEmp
      | cons a as => simp [hK]
    have hq : chunks_per_keyword keywords B = B / (dropEmpty keywords).length := by
      unfold chunks_per_keyword
      exact max_eq_right ((Nat.one_le_div_iff hn).mpr h)
    set dict := (buildLoop search (chunks_per_keyword keywords B * 2)
      (dropEmpty keywords) [] []).1 with hdict
    have hdlen : dict.length ≤ (dropEmpty keywords).length := by
      rw [hdict]
      have hb := buildLoop_dict_len search (chunks_per_keyword keywords B * 2)
        (dropEmpty keywords) [] []
      simpa using hb
    have hfp := firstPass_len (chunks_per_keyword keywords B) dict []
    have hmul : dict.length * chunks_per_keyword keywords B ≤
        (dropEmpty keywords).length * (B / (dropEmpty keywords).length) := by
      rw [hq]
      exact Nat.mul_le_mul_right _ hdlen
    have hdm : (dropEmpty keywords).length * (B / (dropEmpty keywords).length) +
        B % (dropEmpty keywords).length = B := Nat.div_add_mod B _
    have hx : extra_chunks keywords B = B % (dropEmpty keywords).length := rfl
    by_cases hX : 0 < extra_chunks keywords B
    · simp only [hX, if_true]
      rw [List.length_append, passTwo_eq]
      dsimp only
      have h2 : ((dedupNew (firstPass (chunks_per_keyword keywords B) dict []).2
          ((dict.map Prod.snd).flatten)).take
            (extra_chunks keywords B)).length ≤ extra_chunks keywords B := by
        rw [List.length_take]
        omega
      have hchain : (firstPass (chunks_per_keyword keywords B) dict []).1.length +
          ((dedupNew (firstPass (chunks_per_keyword keywords B) dict []).2
            ((dict.map Prod.snd).flatten)).take (extra_chunks keywords B)).length ≤
          (dropEmpty keywords).length * (B / (dropEmpty keywords).length) +
            B % (dropEmpty keywords).length :=
        Nat.add_le_add (hfp.trans hmul) (h2.trans_eq hx)
      exact hchain.trans_eq hdm
    · simp only [hX, if_false]
      refine (hfp.trans hmul).trans ?_
      omega

/-- Witness for C1 amended: two keywords within a budget of 5. -/
theorem find_chunks_budget_witness :
    (find_chunks oneDocSearch ["a", "b"] 5).length ≤ 5 :=
  find_chunks_budget oneDocSearch ["a", "b"] 5 (by decide)

/-- C2: no two passages in one `find_chunks` result share `page_content`. -/
theorem find_chunks_unique_contents (search : SearchFn) (keywords : List String) (B : Nat) :
    ((find_chunks search keywords B).map Document.page_content).Nodup :=
  contents_nodup search keywords B

/-- C3: for a keyword list whose non-empty keywords number `n ≤ B`, the quota
is `max(1, B // n)`, the remainder is `B mod n`, and the first merging pass
takes at most the quota from any one keyword's result list. -/
theorem quota_first_pass (keywords : List String) (B : Nat)
    (hne : dropEmpty keywords ≠ []) (hnB : (dropEmpty keywords).length ≤ B) :
    chunks_per_keyword keywords B = max 1 (B / (dropEmpty keywords).length) ∧
    extra_chunks keywords B = B % (dropEmpty keywords).length ∧
    ∀ (docs : List Document) (seen : List String),
      (passOne (chunks_per_keyword keywords B) docs seen 0).1.length ≤
        chunks_per_keyword keywords B := by
  refine ⟨rfl, rfl, ?_⟩
  intro docs seen
  rw [passOne_eq]
  dsimp only
  rw [List.length_take]
  omega

/-- Witness for C3 at the spec's scenario: three keywords, budget 10. -/
theorem quota_first_pass_witness :
    chunks_per_keyword ["alpha", "beta", "gamma"] 10 =
      max 1 (10 / (dropEmpty ["alpha", "beta", "gamma"]).length) ∧
    extra_chunks ["alpha", "beta", "gamma"] 10 =
      10 % (dropEmpty ["alpha", "beta", "gamma"]).length ∧
    ∀ (docs : List Document) (seen : List String),
      (passOne (chunks_per_keyword ["alpha", "beta", "gamma"] 10) docs seen 0).1.length ≤
        chunks_per_keyword ["alpha", "beta", "gamma"] 10 :=
  quota_first_pass ["alpha", "beta", "gamma"] 10 (by decide) (by decide)

/-- C4: with a keyword list that is empty after dropping empty strings,
`find_chunks` returns no passages and issues no Evidence Store search, and
`get_response` then takes the direct-answer branch. -/
theorem empty_keywords_direct (search : SearchFn) (kws : List String) (B : Nat)
    (h : dropEmpty kws = []) :
    find_chunksAux search kws B = ([], []) ∧
    (∀ (env : Env) (query : String),
      extractKeywords (env.chatSync none (keywordPrompt env query)) = kws →
      (get_response env query B).1 = Branch.direct) := by
  constructor
  · unfold find_chunksAux
    simp [h]
  · intro env query hkw
    unfold get_response
    dsimp only
    rw [hkw]
    have hfc : find_chunks env.search kws B = [] := by
      unfold find_chunks find_chunksAux
      simp [h]
    rw [hfc]
    simp

/-- Witness for C4: a backend replying `","` extracts only empty keywords. -/
theorem empty_keywords_direct_witness :
    find_chunksAux commaEnv.search ["", ""] 10 = ([], []) ∧
    (get_response commaEnv "what?" 10).1 = Branch.direct := by
  have h := empty_keywords_direct commaEnv.search ["", ""] 10 (by decide)
  exact ⟨h.1, h.2 commaEnv "what?" (by decide)⟩

/-- C5 counterexample: a passage whose content strictly contains (but does not
equal) the sentinel is removed by the filter, though the claim says every
passage whose content is not equal to the sentinel is kept. -/
theorem sentinel_filter_cx :
    supersetDoc.page_content ≠ placeholderText ∧ filterPlaceholder [supersetDoc] = [] := by
  constructor
  · decide
  · decide

/-- C5 amended: the filter removes exactly those passages whose content
contains the sentinel as a substring; every other passage is kept. -/
theorem sentinel_filter_mem (docs : List Document) (d : Document) (hd : d ∈ docs) :
    d ∈ filterPlaceholder docs ↔
      hasSub placeholderText.data d.page_content.data = false := by
  unfold filterPlaceholder
  rw [List.mem_filter]
  simp [hd]

/-- Witness for C5 amended at a concrete ordinary passage. -/
theorem sentinel_filter_mem_witness :
    plainDoc ∈ filterPlaceholder [plainDoc] ↔
      hasSub placeholderText.data plainDoc.page_content.data = false :=
  sentinel_filter_mem [plainDoc] plainDoc (by decide)

/-- C6: every occurrence of a keyword, duplicates included, triggers its own
Evidence Store search (the recorded call list is the filtered keyword list
itself), the merging passes never inspect keyword names, and deduplication
shows up only as content uniqueness of the result. -/
theorem duplicates_searched_dedup_by_content :
    (∀ (search : SearchFn) (kws : List String) (B : Nat),
      (find_chunksAux search kws B).2 = dropEmpty kws) ∧
    (∀ (quota : Nat) (f : String → String) (dict : List (String × List Document)),
      ∀ seen : List String,
      firstPass quota (dict.map (fun kv => (f kv.1, kv.2))) seen =
        firstPass quota dict seen) ∧
    (∀ (f : String → String) (dict : List (String × List Document)),
      ∀ (seen : List String) (extra : Nat),
      passTwo (dict.map (fun kv => (f kv.1, kv.2))) seen extra =
        passTwo dict seen extra) ∧
    (∀ (search : SearchFn) (kws : List String) (B : Nat),
      ((find_chunks search kws B).map Document.page_content).Nodup) := by
  refine ⟨?_, ?_, ?_, ?_⟩
  · intro search kws B
    unfold find_chunksAux
    by_cases hEmp : (dropEmpty kws).isEmpty
    · rw [List.isEmpty_iff] at hEmp
      simp [hEmp]
    · simp only [hEmp, Bool.false_eq_true, if_false]
      rw [buildLoop_calls]
      simp
  · intro quota f dict
    induction dict with
    | nil => intro seen; rfl
    | cons kv rest ih =>
      obtain ⟨k, docs⟩ := kv
      intro seen
      simp only [List.map_cons, firstPass]
      rw [ih]
  · intro f dict
    induction dict with
    | nil => intro seen extra; rfl
    | cons kv rest ih =>
      obtain ⟨k, docs⟩ := kv
      intro seen extra
      simp only [List.map_cons, passTwo]
      rw [ih]
  · intro search kws B
    exact contents_nodup search kws B

/-- C10: the second pass is greedy in keyword order — it returns the first
`extra` still-unseen passages of the concatenated per-keyword lists, so one
keyword can absorb every remainder slot; concretely, with three keywords and
budget 8 both extra slots come from the first keyword and the later keywords
receive none. -/
theorem second_pass_greedy :
    (∀ (dict : List (String × List Document)) (seen : List String) (extra : Nat),
      (passTwo dict seen extra).1 =
        (dedupNew seen ((dict.map Prod.snd).flatten)).take extra) ∧
    find_chunks fourDocSearch ["a", "b", "c"] 8 =
      [⟨"a1", []⟩, ⟨"a2", []⟩, ⟨"b1", []⟩, ⟨"b2", []⟩, ⟨"c1", []⟩, ⟨"c2", []⟩,
       ⟨"a3", []⟩, ⟨"a4", []⟩] := by
  refine ⟨?_, by decide⟩
  intro dict seen extra
  rw [passTwo_eq]

end Rag
